import Mathlib

/- Formal model of the Job Application Tracker client.

   Embedded source:
   - the record model (src/types/job.ts),
   - the derived-metrics aggregation computed inside the useMemo of
     src/components/Dashboard.tsx (status histogram, monthly histogram,
     conversion rates),
   - the status options offered by the JobForm creation dialog and by the
     per-row status selector of JobList.

   JavaScript number arithmetic in the rate computation is modelled exactly:
   binary64 values are represented by the rationals they denote, and each
   division and multiplication rounds its exact result to the nearest
   representable value (ties to even), as IEEE 754 prescribes in the normal
   range.  The magnitudes reachable here (counts below 2^32, percentages
   below 2^39) stay far inside the normal range, so no overflow or
   subnormal handling is needed. -/

/-- The closed status enumeration from src/types/job.ts. -/
inductive JobStatus : Type
  | Applied
  | Interview
  | Offer
  | Accepted
  | Rejected
  deriving DecidableEq

/-- A job record, from the Job interface in src/types/job.ts. -/
structure Job where
  id : String
  company : String
  role : String
  dateApplied : String
  status : JobStatus
  notes : Option String := none
  updatedAt : String := ""
  deriving DecidableEq

section AssocCounts

variable {α : Type} [DecidableEq α]

/-- One step of the JS object tally pattern acc[k] = (acc[k] or 0) + 1:
    an existing key is incremented in place, a new key is appended, so JS
    property insertion order is preserved. -/
def bump : List (α × ℕ) → α → List (α × ℕ)
  | [], k => [(k, 1)]
  | (k0, v) :: rest, k =>
    if k0 = k then (k0, v + 1) :: rest else (k0, v) :: bump rest k

/-- The JS object read acc[k] or 0. -/
def lookupVal (k : α) : List (α × ℕ) → ℕ
  | [] => 0
  | (k0, v) :: rest => if k0 = k then v else lookupVal k rest

/-- Keys in order of first occurrence, appended after previously seen keys. -/
def firstOccsFrom (seen : List α) : List α → List α
  | [] => seen
  | k :: ks => firstOccsFrom (if k ∈ seen then seen else seen ++ [k]) ks

/-- Keys of a list in order of first occurrence. -/
def firstOccs (l : List α) : List α := firstOccsFrom [] l

/-- Sum of the counts held in an association list. -/
def sumVals (m : List (α × ℕ)) : ℕ := (m.map Prod.snd).sum

end AssocCounts

/-- Fueled floor of the base-2 logarithm; structural recursion so the kernel
    can evaluate it. -/
def nlog2Aux : ℕ → ℕ → ℕ
  | 0, _ => 0
  | fuel + 1, n => if n ≤ 1 then 0 else nlog2Aux fuel (n / 2) + 1

/-- Floor of the base-2 logarithm of a positive natural. -/
def nlog2 (n : ℕ) : ℕ := nlog2Aux n n

/-- Integer power of two as a rational, kernel-computable. -/
def pow2 (e : ℤ) : ℚ :=
  if 0 ≤ e then ((2 ^ e.toNat : ℕ) : ℚ) else ((2 ^ (-e).toNat : ℕ) : ℚ)⁻¹

/-- Round a rational to an integer: nearest, ties to even (the IEEE 754
    default rounding used for each arithmetic operation). -/
def rhe (x : ℚ) : ℤ :=
  if x - ⌊x⌋ < 1 / 2 then ⌊x⌋
  else if (1 : ℚ) / 2 < x - ⌊x⌋ then ⌊x⌋ + 1
  else if ⌊x⌋ % 2 = 0 then ⌊x⌋ else ⌊x⌋ + 1

/-- ECMAScript Math.round: nearest integer, ties toward positive infinity. -/
def jsRound (x : ℚ) : ℤ :=
  if (1 : ℚ) / 2 ≤ x - ⌊x⌋ then ⌊x⌋ + 1 else ⌊x⌋

/-- Binade exponent: for 0 < q, the e with 2^e ≤ q < 2^(e+1). -/
def findExp (q : ℚ) : ℤ :=
  let e0 : ℤ := (nlog2 q.num.toNat : ℤ) - (nlog2 q.den : ℤ)
  if q < pow2 e0 then e0 - 1
  else if pow2 (e0 + 1) ≤ q then e0 + 1
  else e0

/-- The binary64 value nearest to a positive rational: the significand is the
    exact value scaled into [2^52, 2^53] and rounded to an integer, ties to
    even. -/
def ofRatPos (q : ℚ) : ℚ :=
  ((rhe (q * pow2 (52 - findExp q)) : ℤ) : ℚ) * pow2 (findExp q - 52)

/-- The binary64 value nearest to a rational (normal range). -/
def toDouble (q : ℚ) : ℚ :=
  if q = 0 then 0 else if q < 0 then -ofRatPos (-q) else ofRatPos q

/-- Math.round((num / den) * 100) as evaluated by JS double arithmetic in the
    rate computation of Dashboard.tsx: the division and the multiplication
    each round to the nearest double. -/
def jsRate (num den : ℕ) : ℤ :=
  jsRound (toDouble (toDouble ((num : ℚ) / (den : ℚ)) * 100))

/-- A parsed calendar date. -/
structure CalDate where
  year : ℕ
  month : ℕ
  day : ℕ
  deriving DecidableEq

/-- Decimal digits to a natural number. -/
def digitsToNat (cs : List Char) : ℕ :=
  cs.foldl (fun n c => 10 * n + (c.toNat - 48)) 0

/-- Gregorian leap-year rule. -/
def isLeapYear (y : ℕ) : Bool :=
  (y % 4 == 0 && y % 100 != 0) || y % 400 == 0

/-- Number of days in a month. -/
def daysInMonth (y m : ℕ) : ℕ :=
  if m = 2 then (if isLeapYear y then 29 else 28)
  else if m = 4 ∨ m = 6 ∨ m = 9 ∨ m = 11 then 30
  else 31

/-- Models the ECMAScript new Date(s) parse restricted to the date-only ISO
    form "YYYY-MM-DD", the only format the app itself produces (the date
    input of JobForm).  A string of any other shape, or with out-of-range
    month or day fields, yields an invalid date, modelled as none. -/
def parseJsDate (s : String) : Option CalDate :=
  match s.toList with
  | [y1, y2, y3, y4, h1, m1, m2, h2, d1, d2] =>
    if y1.isDigit ∧ y2.isDigit ∧ y3.isDigit ∧ y4.isDigit ∧ h1 = '-' ∧
       m1.isDigit ∧ m2.isDigit ∧ h2 = '-' ∧ d1.isDigit ∧ d2.isDigit then
      let y := digitsToNat [y1, y2, y3, y4]
      let m := digitsToNat [m1, m2]
      let d := digitsToNat [d1, d2]
      if 1 ≤ m ∧ m ≤ 12 ∧ 1 ≤ d ∧ d ≤ daysInMonth y m then
        some ⟨y, m, d⟩
      else none
    else none
  | _ => none

/-- Three-letter month name, as date-fns "MMM" produces. -/
def monthName : ℕ → String
  | 1 => "Jan"
  | 2 => "Feb"
  | 3 => "Mar"
  | 4 => "Apr"
  | 5 => "May"
  | 6 => "Jun"
  | 7 => "Jul"
  | 8 => "Aug"
  | 9 => "Sep"
  | 10 => "Oct"
  | 11 => "Nov"
  | 12 => "Dec"
  | _ => ""

/-- Year padded to four digits, as date-fns "yyyy" produces. -/
def pad4 (y : ℕ) : String :=
  if y < 10 then "000" ++ toString y
  else if y < 100 then "00" ++ toString y
  else if y < 1000 then "0" ++ toString y
  else toString y

/-- The label format(date, "MMM yyyy") of date-fns, taken at UTC. -/
def formatMonthYear (d : CalDate) : String :=
  monthName d.month ++ " " ++ pad4 d.year

/-- Display order of the five statuses (STATUS_ORDER in Dashboard.tsx). -/
def STATUS_ORDER : List JobStatus :=
  [JobStatus.Applied, JobStatus.Interview, JobStatus.Offer,
   JobStatus.Accepted, JobStatus.Rejected]

/-- The statusCounts reduce of Dashboard.tsx: a JS object tallying each
    record status. -/
def statusCountsRaw (jobs : List Job) : List (JobStatus × ℕ) :=
  jobs.foldl (fun acc j => bump acc j.status) []

/-- One entry of the statusData array (name and value; the color fields are
    presentation only and carry no data). -/
structure StatusDatum where
  name : JobStatus
  value : ℕ
  deriving DecidableEq

/-- The statusData array of Dashboard.tsx: in the empty-input early return it
    is the empty array; otherwise STATUS_ORDER mapped over the tally, reading
    absent keys as 0. -/
def statusDataOf (jobs : List Job) : List StatusDatum :=
  if jobs.isEmpty then []
  else STATUS_ORDER.map fun s => ⟨s, lookupVal s (statusCountsRaw jobs)⟩

/-- The scalar count reads of Dashboard.tsx:
    statusData.find(s => s.name === status)?.value or 0. -/
def findValue (jobs : List Job) (s : JobStatus) : ℕ :=
  (((statusDataOf jobs).find? fun d => d.name = s).map StatusDatum.value).getD 0

/-- successJobs in Dashboard.tsx. -/
def successJobsOf (jobs : List Job) : ℕ := findValue jobs JobStatus.Accepted

/-- interviewCount in Dashboard.tsx. -/
def interviewCountOf (jobs : List Job) : ℕ := findValue jobs JobStatus.Interview

/-- offerCount in Dashboard.tsx. -/
def offerCountOf (jobs : List Job) : ℕ := findValue jobs JobStatus.Offer

/-- appliedCount in Dashboard.tsx. -/
def appliedCountOf (jobs : List Job) : ℕ := findValue jobs JobStatus.Applied

/-- successRate in Dashboard.tsx (0 in the empty-input early return). -/
def successRateOf (jobs : List Job) : ℤ :=
  if jobs.isEmpty then 0
  else if 0 < jobs.length then jsRate (successJobsOf jobs) jobs.length else 0

/-- applicationToInterviewRate in Dashboard.tsx. -/
def applicationToInterviewRateOf (jobs : List Job) : ℤ :=
  if jobs.isEmpty then 0
  else if 0 < appliedCountOf jobs then
    jsRate (interviewCountOf jobs) (appliedCountOf jobs)
  else 0

/-- interviewToOfferRate in Dashboard.tsx. -/
def interviewToOfferRateOf (jobs : List Job) : ℤ :=
  if jobs.isEmpty then 0
  else if 0 < interviewCountOf jobs then
    jsRate (offerCountOf jobs) (interviewCountOf jobs)
  else 0

/-- offerToAcceptanceRate in Dashboard.tsx. -/
def offerToAcceptanceRateOf (jobs : List Job) : ℤ :=
  if jobs.isEmpty then 0
  else if 0 < offerCountOf jobs then
    jsRate (successJobsOf jobs) (offerCountOf jobs)
  else 0

/-- The monthlyCounts reduce of Dashboard.tsx.  A record with a falsy (empty)
    dateApplied is skipped; otherwise new Date(dateApplied) is parsed and
    format(date, "MMM yyyy") is applied, and date-fns format throws
    RangeError "Invalid time value" on an invalid date, aborting the whole
    computation. -/
def monthlyFold (acc : List (String × ℕ)) : List Job → Except String (List (String × ℕ))
  | [] => Except.ok acc
  | j :: rest =>
    if j.dateApplied ≠ "" then
      match parseJsDate j.dateApplied with
      | some d => monthlyFold (bump acc (formatMonthYear d)) rest
      | none => Except.error "Invalid time value"
    else monthlyFold acc rest

/-- monthlyCounts (and, entrywise, monthlyData) of Dashboard.tsx. -/
def monthlyCountsOf (jobs : List Job) : Except String (List (String × ℕ)) :=
  monthlyFold [] jobs

/-- The month label a record contributes to monthlyCounts, when it
    contributes one. -/
def monthLabel? (j : Job) : Option String :=
  if j.dateApplied ≠ "" then (parseJsDate j.dateApplied).map formatMonthYear
  else none

/-- The labels of the records that reach the tally, in input order. -/
def monthLabels (jobs : List Job) : List String := jobs.filterMap monthLabel?

/-- A record the monthly reduce can process without throwing: its
    dateApplied is empty (skipped) or parses. -/
def dateOk (j : Job) : Prop :=
  j.dateApplied = "" ∨ (parseJsDate j.dateApplied).isSome

instance (j : Job) : Decidable (dateOk j) := by
  unfold dateOk; infer_instance

/-- The values the useMemo of Dashboard.tsx computes from the record list. -/
structure DerivedMetrics where
  statusData : List StatusDatum
  monthlyData : List (String × ℕ)
  totalJobs : ℕ
  successRate : ℤ
  successJobs : ℕ
  applicationToInterviewRate : ℤ
  interviewToOfferRate : ℤ
  offerToAcceptanceRate : ℤ
  interviewCount : ℕ
  offerCount : ℕ
  appliedCount : ℕ
  deriving DecidableEq

/-- The whole aggregation of Dashboard.tsx: the empty-input early return,
    else the tallies and rates, with the possible RangeError of the monthly
    reduce aborting the computation. -/
def aggregate (jobs : List Job) : Except String DerivedMetrics :=
  if jobs.isEmpty then
    Except.ok ⟨[], [], 0, 0, 0, 0, 0, 0, 0, 0, 0⟩
  else
    match monthlyCountsOf jobs with
    | Except.error e => Except.error e
    | Except.ok monthly =>
      Except.ok ⟨statusDataOf jobs, monthly, jobs.length,
        successRateOf jobs, successJobsOf jobs,
        applicationToInterviewRateOf jobs, interviewToOfferRateOf jobs,
        offerToAcceptanceRateOf jobs,
        interviewCountOf jobs, offerCountOf jobs, appliedCountOf jobs⟩

/-- Modelled from the spec: rounding "round(100 * numerator / denominator)"
    read as exact round-to-nearest with ties rounded up, the reading the
    claims give to the rate formulas.  Compared against the jsRate the code
    actually computes. -/
def specRoundTiesUp (q : ℚ) : ℤ := ⌊q + 1 / 2⌋

/-- The status options the JobForm creation dialog offers (its MenuItem
    values). -/
def formStatusOptions : List JobStatus :=
  [JobStatus.Applied, JobStatus.Interview, JobStatus.Offer, JobStatus.Rejected]

/-- The status options the per-row selector of JobList offers. -/
def jobListStatusOptions : List JobStatus :=
  [JobStatus.Applied, JobStatus.Interview, JobStatus.Offer,
   JobStatus.Accepted, JobStatus.Rejected]

/-- The initial value of the JobForm status field. -/
def initialFormStatus : JobStatus := JobStatus.Applied

/-- The values the JobForm status field can hold: its initial value (also
    restored by handleClose), or a value picked in its select, which lists
    only formStatusOptions.  handleSubmit sends the current value, so every
    status a form submission can carry is reachable here. -/
inductive FormStatusReachable : JobStatus → Prop
  | init : FormStatusReachable initialFormStatus
  | select (s : JobStatus) (h : s ∈ formStatusOptions) : FormStatusReachable s

/-- Whether an Except value is a normal return rather than a thrown error. -/
def isOkE {ε δ : Type} : Except ε δ → Bool
  | Except.ok _ => true
  | Except.error _ => false

/-- Decidable equality of Except values, component by component. -/
def exceptDecEq {ε δ : Type} [DecidableEq ε] [DecidableEq δ] :
    (a b : Except ε δ) → Decidable (a = b)
  | Except.error e1, Except.error e2 =>
    if h : e1 = e2 then isTrue (by rw [h])
    else isFalse (by intro hh; cases hh; exact h rfl)
  | Except.error _, Except.ok _ => isFalse (by intro hh; cases hh)
  | Except.ok _, Except.error _ => isFalse (by intro hh; cases hh)
  | Except.ok v1, Except.ok v2 =>
    if h : v1 = v2 then isTrue (by rw [h])
    else isFalse (by intro hh; cases hh; exact h rfl)

instance {ε δ : Type} [DecidableEq ε] [DecidableEq δ] : DecidableEq (Except ε δ) :=
  exceptDecEq

/-- Record builder for concrete checks. -/
def mkJob (i d : String) (s : JobStatus) : Job :=
  { id := i, company := "Acme", role := "Dev", dateApplied := d, status := s }

/-- Two Interview records against one Applied record. -/
def exTwoInterviewOneApplied : List Job :=
  [mkJob "a" "2024-01-10" JobStatus.Interview,
   mkJob "b" "2024-01-11" JobStatus.Interview,
   mkJob "c" "2024-01-12" JobStatus.Applied]

/-- 23 Interview records against 40 Applied records: the exact ratio is
    57.5 percent, an exact rounding tie. -/
def exTie2340 : List Job :=
  List.replicate 23 (mkJob "i" "2024-01-10" JobStatus.Interview) ++
  List.replicate 40 (mkJob "a" "2024-01-11" JobStatus.Applied)

/-- One record whose dateApplied is truthy but not parseable as a date. -/
def exBadDate : List Job := [mkJob "x" "not-a-date" JobStatus.Applied]

/-- Records with an empty date, two dates in one month and one in another. -/
def exMixedDates : List Job :=
  [mkJob "a" "" JobStatus.Applied,
   mkJob "b" "2024-01-15" JobStatus.Interview,
   mkJob "c" "2024-01-20" JobStatus.Applied,
   mkJob "d" "2024-03-05" JobStatus.Offer]

/-- A two-record list and its transposition. -/
def exPermA : List Job :=
  [mkJob "a" "2024-01-10" JobStatus.Applied,
   mkJob "b" "2024-02-11" JobStatus.Offer]

/-- The transposition of exPermA. -/
def exPermB : List Job :=
  [mkJob "b" "2024-02-11" JobStatus.Offer,
   mkJob "a" "2024-01-10" JobStatus.Applied]

section AssocLemmas

variable {α : Type} [DecidableEq α]

theorem lookupVal_bump_self (m : List (α × ℕ)) (k : α) :
    lookupVal k (bump m k) = lookupVal k m + 1 := by
  induction m with
  | nil => simp [bump, lookupVal]
  | cons p rest ih =>
    obtain ⟨k0, v⟩ := p
    by_cases h : k0 = k
    · subst h; simp [bump, lookupVal]
    · simp [bump, lookupVal, h, ih]

theorem lookupVal_bump_ne (m : List (α × ℕ)) (k q : α) (h : q ≠ k) :
    lookupVal q (bump m k) = lookupVal q m := by
  induction m with
  | nil =>
    have hne : ¬ (k = q) := fun hh => h hh.symm
    simp [bump, lookupVal, hne]
  | cons p rest ih =>
    obtain ⟨k0, v⟩ := p
    by_cases hk : k0 = k
    · subst hk
      have hne : ¬ (k0 = q) := fun hh => h hh.symm
      simp [bump, lookupVal, hne]
    · simp [bump, lookupVal, hk, ih]

theorem map_fst_bump (m : List (α × ℕ)) (k : α) :
    (bump m k).map Prod.fst =
      if k ∈ m.map Prod.fst then m.map Prod.fst else m.map Prod.fst ++ [k] := by
  induction m with
  | nil => simp [bump]
  | cons p rest ih =>
    obtain ⟨k0, v⟩ := p
    by_cases h : k0 = k
    · subst h; simp [bump]
    · have hne : ¬ k = k0 := fun hh => h hh.symm
      simp only [bump, if_neg h, List.map_cons, ih, List.mem_cons, hne, false_or]
      by_cases hm : k ∈ rest.map Prod.fst <;> simp [hm]

theorem sumVals_bump (m : List (α × ℕ)) (k : α) :
    sumVals (bump m k) = sumVals m + 1 := by
  induction m with
  | nil => simp [bump, sumVals]
  | cons p rest ih =>
    obtain ⟨k0, v⟩ := p
    by_cases h : k0 = k
    · subst h; simp [bump, sumVals]; omega
    · simp [bump, sumVals, h] at ih ⊢; omega

theorem lookupVal_foldl_bump (ls : List α) (m : List (α × ℕ)) (k : α) :
    lookupVal k (ls.foldl bump m) = lookupVal k m + ls.countP (fun a => a = k) := by
  induction ls generalizing m with
  | nil => simp
  | cons a ls ih =>
    simp only [List.foldl_cons, List.countP_cons, ih]
    by_cases h : a = k
    · subst h; rw [lookupVal_bump_self]; simp; omega
    · rw [lookupVal_bump_ne _ _ _ (fun hh => h hh.symm)]; simp [h]

theorem map_fst_foldl_bump (ls : List α) (m : List (α × ℕ)) :
    (ls.foldl bump m).map Prod.fst = firstOccsFrom (m.map Prod.fst) ls := by
  induction ls generalizing m with
  | nil => simp [firstOccsFrom]
  | cons a ls ih =>
    simp only [List.foldl_cons, firstOccsFrom, ih, map_fst_bump]

theorem mem_firstOccsFrom (ls : List α) (seen : List α) (k : α) :
    k ∈ firstOccsFrom seen ls ↔ k ∈ seen ∨ k ∈ ls := by
  induction ls generalizing seen with
  | nil => simp [firstOccsFrom]
  | cons a ls ih =>
    simp only [firstOccsFrom, ih, List.mem_cons]
    by_cases h : a ∈ seen
    · rw [if_pos h]
      constructor
      · rintro (hs | hl) <;> tauto
      · rintro (hs | rfl | hl) <;> tauto
    · rw [if_neg h]
      simp only [List.mem_append, List.mem_singleton]
      tauto

theorem nodup_firstOccsFrom (ls : List α) (seen : List α) (h : seen.Nodup) :
    (firstOccsFrom seen ls).Nodup := by
  induction ls generalizing seen with
  | nil => simpa [firstOccsFrom]
  | cons a ls ih =>
    simp only [firstOccsFrom]
    by_cases ha : a ∈ seen
    · rw [if_pos ha]; exact ih _ h
    · rw [if_neg ha]
      refine ih _ ?_
      rw [List.nodup_append]
      refine ⟨h, List.nodup_singleton a, ?_⟩
      intro x hx hxa
      rw [List.mem_singleton] at hxa
      subst hxa
      exact ha hx

theorem sumVals_foldl_bump (ls : List α) (m : List (α × ℕ)) :
    sumVals (ls.foldl bump m) = sumVals m + ls.length := by
  induction ls generalizing m with
  | nil => simp
  | cons a ls ih =>
    simp only [List.foldl_cons, ih, sumVals_bump, List.length_cons]
    omega

theorem lookupVal_eq_of_mem (m : List (α × ℕ)) (k : α) (v : ℕ)
    (hnd : (m.map Prod.fst).Nodup) (hm : (k, v) ∈ m) : lookupVal k m = v := by
  induction m with
  | nil => simp at hm
  | cons p rest ih =>
    obtain ⟨k0, v0⟩ := p
    simp only [List.map_cons, List.nodup_cons] at hnd
    rcases List.mem_cons.mp hm with hEq | hMem
    · obtain ⟨rfl, rfl⟩ := Prod.mk.injEq .. ▸ hEq
      simp [lookupVal]
    · have hne : k0 ≠ k := by
        rintro rfl
        exact hnd.1 (List.mem_map_of_mem Prod.fst hMem)
      simp [lookupVal, hne, ih hnd.2 hMem]

theorem mem_map_fst_iff (m : List (α × ℕ)) (k : α) :
    k ∈ m.map Prod.fst ↔ ∃ v, (k, v) ∈ m := by
  constructor
  · intro h
    obtain ⟨p, hp, hfst⟩ := List.mem_map.mp h
    exact ⟨p.2, by rwa [show (k, p.2) = p from Prod.ext hfst.symm rfl]⟩
  · rintro ⟨v, hv⟩
    exact List.mem_map_of_mem Prod.fst hv

end AssocLemmas

theorem nlog2Aux_spec (fuel : ℕ) : ∀ n, 1 ≤ n → n ≤ fuel →
    2 ^ nlog2Aux fuel n ≤ n ∧ n < 2 ^ (nlog2Aux fuel n + 1) := by
  induction fuel with
  | zero => intro n h1 h2; omega
  | succ fuel ih =>
    intro n h1 h2
    by_cases h : n ≤ 1
    · simp only [nlog2Aux, if_pos h]
      omega
    · have hrec := ih (n / 2) (by omega) (by omega)
      simp only [nlog2Aux, if_neg h]
      rw [pow_succ, pow_succ]
      obtain ⟨hlo, hhi⟩ := hrec
      omega

theorem nlog2_spec (n : ℕ) (h : 1 ≤ n) :
    2 ^ nlog2 n ≤ n ∧ n < 2 ^ (nlog2 n + 1) :=
  nlog2Aux_spec n n h le_rfl

theorem pow2_eq_zpow (e : ℤ) : pow2 e = (2 : ℚ) ^ e := by
  unfold pow2
  by_cases h : 0 ≤ e
  · rw [if_pos h]
    push_cast
    rw [← zpow_natCast, Int.toNat_of_nonneg h]
  · rw [if_neg h]
    push_cast
    rw [← zpow_natCast, Int.toNat_of_nonneg (by omega : (0 : ℤ) ≤ -e), ← zpow_neg, neg_neg]

theorem pow2_pos (e : ℤ) : 0 < pow2 e := by
  rw [pow2_eq_zpow]
  positivity

theorem pow2_nonneg (e : ℤ) : 0 ≤ pow2 e := (pow2_pos e).le

theorem pow2_add (a b : ℤ) : pow2 (a + b) = pow2 a * pow2 b := by
  rw [pow2_eq_zpow, pow2_eq_zpow, pow2_eq_zpow,
    zpow_add₀ (by norm_num : (2 : ℚ) ≠ 0)]

theorem le_of_pow2_le_pow2 {a b : ℤ} (h : pow2 a ≤ pow2 b) : a ≤ b := by
  rw [pow2_eq_zpow, pow2_eq_zpow] at h
  exact (zpow_le_zpow_iff_right₀ one_lt_two).mp h

theorem pow2_of_nonneg {e : ℤ} (h : 0 ≤ e) : pow2 e = ((2 ^ e.toNat : ℕ) : ℚ) :=
  if_pos h

theorem rhe_nonneg (x : ℚ) (h : 0 ≤ x) : 0 ≤ rhe x := by
  unfold rhe
  have hf : (0 : ℤ) ≤ ⌊x⌋ := Int.floor_nonneg.mpr h
  split_ifs <;> omega

theorem rhe_le_int (x : ℚ) (c : ℤ) (h : x ≤ (c : ℚ)) : rhe x ≤ c := by
  have hfc : ⌊x⌋ ≤ c := by
    have := Int.floor_le_floor h
    rwa [Int.floor_intCast] at this
  have hfl : (⌊x⌋ : ℚ) ≤ x := Int.floor_le x
  unfold rhe
  split_ifs with h1 h2 h3
  · exact hfc
  · have hlt : (⌊x⌋ : ℚ) < (c : ℚ) := by linarith
    have : ⌊x⌋ < c := by exact_mod_cast hlt
    omega
  · exact hfc
  · have h1le : (1 : ℚ) / 2 ≤ x - ⌊x⌋ := not_lt.mp h1
    have hlt : (⌊x⌋ : ℚ) < (c : ℚ) := by linarith
    have : ⌊x⌋ < c := by exact_mod_cast hlt
    omega

theorem jsRound_nonneg (x : ℚ) (h : 0 ≤ x) : 0 ≤ jsRound x := by
  unfold jsRound
  have hf : (0 : ℤ) ≤ ⌊x⌋ := Int.floor_nonneg.mpr h
  split_ifs <;> omega

theorem jsRound_le_int (x : ℚ) (c : ℤ) (h : x ≤ (c : ℚ)) : jsRound x ≤ c := by
  have hfc : ⌊x⌋ ≤ c := by
    have := Int.floor_le_floor h
    rwa [Int.floor_intCast] at this
  unfold jsRound
  split_ifs with h1
  · have hlt : (⌊x⌋ : ℚ) < (c : ℚ) := by linarith
    have : ⌊x⌋ < c := by exact_mod_cast hlt
    omega
  · exact hfc

theorem findExp_spec (q : ℚ) (hq : 0 < q) :
    pow2 (findExp q) ≤ q ∧ q < pow2 (findExp q + 1) := by
  have hnum : 0 < q.num := Rat.num_pos.mpr hq
  have hden : 0 < q.den := q.den_pos
  have ha1 : 1 ≤ q.num.toNat := by omega
  obtain ⟨hla, hlau⟩ := nlog2_spec _ ha1
  obtain ⟨hlb, hlbu⟩ := nlog2_spec _ hden
  set la := nlog2 q.num.toNat with hladef
  set lb := nlog2 q.den with hlbdef
  have hqeq : q = ((q.num.toNat : ℕ) : ℚ) / ((q.den : ℕ) : ℚ) := by
    have ht : ((q.num.toNat : ℤ) : ℚ) = ((q.num : ℤ) : ℚ) := by
      exact_mod_cast congrArg (fun z : ℤ => (z : ℚ)) (Int.toNat_of_nonneg hnum.le)
    push_cast at ht ⊢
    rw [ht]
    exact (Rat.num_div_den q).symm
  have hdenQ : (0 : ℚ) < ((q.den : ℕ) : ℚ) := by exact_mod_cast hden
  have hupper : q < pow2 ((la : ℤ) - (lb : ℤ) + 1) := by
    have he : (la : ℤ) - (lb : ℤ) + 1 = ((la + 1 : ℕ) : ℤ) - ((lb : ℕ) : ℤ) := by
      push_cast; ring
    rw [he, pow2_eq_zpow, zpow_sub₀ (by norm_num : (2 : ℚ) ≠ 0),
      zpow_natCast, zpow_natCast, hqeq]
    rw [div_lt_div_iff₀ hdenQ (by positivity)]
    have hA : ((q.num.toNat : ℕ) : ℚ) < (2 : ℚ) ^ (la + 1) := by
      exact_mod_cast hlau
    have hB : (2 : ℚ) ^ lb ≤ ((q.den : ℕ) : ℚ) := by
      exact_mod_cast hlb
    have hP : (0 : ℚ) < (2 : ℚ) ^ (la + 1) := by positivity
    nlinarith
  have hfe : findExp q =
      if q < pow2 ((la : ℤ) - (lb : ℤ)) then (la : ℤ) - (lb : ℤ) - 1
      else if pow2 ((la : ℤ) - (lb : ℤ) + 1) ≤ q then (la : ℤ) - (lb : ℤ) + 1
      else (la : ℤ) - (lb : ℤ) := rfl
  rw [hfe]
  split_ifs with h1 h2
  · constructor
    · have he : (la : ℤ) - (lb : ℤ) - 1 = ((la : ℕ) : ℤ) - ((lb + 1 : ℕ) : ℤ) := by
        push_cast; ring
      rw [he, pow2_eq_zpow, zpow_sub₀ (by norm_num : (2 : ℚ) ≠ 0),
        zpow_natCast, zpow_natCast, hqeq]
      rw [div_le_div_iff₀ (by positivity) hdenQ]
      have hA : (2 : ℚ) ^ la ≤ ((q.num.toNat : ℕ) : ℚ) := by
        exact_mod_cast hla
      have hB : ((q.den : ℕ) : ℚ) < (2 : ℚ) ^ (lb + 1) := by
        exact_mod_cast hlbu
      have hApos : (0 : ℚ) ≤ ((q.num.toNat : ℕ) : ℚ) := by positivity
      nlinarith
    · have he : (la : ℤ) - (lb : ℤ) - 1 + 1 = (la : ℤ) - (lb : ℤ) := by ring
      rw [he]
      exact h1
  · exact absurd h2 (not_le.mpr hupper)
  · exact ⟨not_lt.mp h1, hupper⟩

theorem ofRatPos_nonneg (q : ℚ) (hq : 0 < q) : 0 ≤ ofRatPos q := by
  unfold ofRatPos
  have h1 : 0 ≤ rhe (q * pow2 (52 - findExp q)) :=
    rhe_nonneg _ (mul_nonneg hq.le (pow2_nonneg _))
  have h1Q : (0 : ℚ) ≤ ((rhe (q * pow2 (52 - findExp q)) : ℤ) : ℚ) := by
    exact_mod_cast h1
  exact mul_nonneg h1Q (pow2_nonneg _)

theorem toDouble_nonneg (q : ℚ) (h : 0 ≤ q) : 0 ≤ toDouble q := by
  unfold toDouble
  split_ifs with h0 hneg
  · exact le_refl 0
  · exact absurd hneg (not_lt.mpr h)
  · exact ofRatPos_nonneg q (lt_of_le_of_ne h (Ne.symm h0))

theorem toDouble_le_nat (q : ℚ) (N : ℕ) (h0 : 0 ≤ q) (hN : q ≤ (N : ℚ))
    (hN52 : (N : ℚ) ≤ pow2 52) : toDouble q ≤ (N : ℚ) := by
  unfold toDouble
  split_ifs with hz hneg
  · exact Nat.cast_nonneg N
  · exact absurd hneg (not_lt.mpr h0)
  · have hq : 0 < q := lt_of_le_of_ne h0 (Ne.symm hz)
    obtain ⟨hlo, _⟩ := findExp_spec q hq
    have he52 : findExp q ≤ 52 :=
      le_of_pow2_le_pow2 (le_trans hlo (le_trans hN hN52))
    have hkN : ((52 - findExp q).toNat : ℤ) = 52 - findExp q :=
      Int.toNat_of_nonneg (by omega)
    have hpow : pow2 (52 - findExp q) = ((2 ^ (52 - findExp q).toNat : ℕ) : ℚ) :=
      pow2_of_nonneg (by omega)
    have hxle : q * pow2 (52 - findExp q) ≤
        ((N * 2 ^ (52 - findExp q).toNat : ℕ) : ℚ) := by
      have hEq : ((N * 2 ^ (52 - findExp q).toNat : ℕ) : ℚ) =
          (N : ℚ) * pow2 (52 - findExp q) := by
        rw [hpow]; push_cast; ring
      rw [hEq]
      exact mul_le_mul_of_nonneg_right hN (pow2_nonneg _)
    have hrle : rhe (q * pow2 (52 - findExp q)) ≤
        ((N * 2 ^ (52 - findExp q).toNat : ℕ) : ℤ) :=
      rhe_le_int _ _ (by exact_mod_cast hxle)
    unfold ofRatPos
    calc ((rhe (q * pow2 (52 - findExp q)) : ℤ) : ℚ) * pow2 (findExp q - 52)
        ≤ ((N * 2 ^ (52 - findExp q).toNat : ℕ) : ℚ) * pow2 (findExp q - 52) := by
          exact mul_le_mul_of_nonneg_right (by exact_mod_cast hrle) (pow2_nonneg _)
      _ = (N : ℚ) * (pow2 (52 - findExp q) * pow2 (findExp q - 52)) := by
          rw [hpow]; push_cast; ring
      _ = (N : ℚ) := by
          rw [← pow2_add, show 52 - findExp q + (findExp q - 52) = 0 by ring]
          norm_num [pow2]

theorem jsRate_nonneg (n d : ℕ) : 0 ≤ jsRate n d := by
  unfold jsRate
  apply jsRound_nonneg
  apply toDouble_nonneg
  have h1 : (0 : ℚ) ≤ toDouble ((n : ℚ) / (d : ℚ)) :=
    toDouble_nonneg _ (by positivity)
  linarith

theorem jsRate_le_100 (n d : ℕ) (h : n ≤ d) : jsRate n d ≤ 100 := by
  unfold jsRate
  have hq1 : ((n : ℚ) / (d : ℚ)) ≤ ((1 : ℕ) : ℚ) := by
    rcases Nat.eq_zero_or_pos d with hd | hd
    · subst hd
      have : n = 0 := Nat.le_zero.mp h
      subst this
      norm_num
    · have hdQ : (0 : ℚ) < (d : ℚ) := by exact_mod_cast hd
      rw [Nat.cast_one, div_le_one hdQ]
      exact_mod_cast h
  have h52a : ((1 : ℕ) : ℚ) ≤ pow2 52 := by
    have ht : ((52 : ℤ)).toNat = 52 := rfl
    rw [pow2_of_nonneg (by norm_num : (0 : ℤ) ≤ 52), ht]
    norm_num
  have hd1 := toDouble_le_nat ((n : ℚ) / (d : ℚ)) 1 (by positivity) hq1 h52a
  have hd1nn : (0 : ℚ) ≤ toDouble ((n : ℚ) / (d : ℚ)) :=
    toDouble_nonneg _ (by positivity)
  have hq2 : toDouble ((n : ℚ) / (d : ℚ)) * 100 ≤ ((100 : ℕ) : ℚ) := by
    push_cast at hd1 ⊢
    nlinarith
  have h52b : ((100 : ℕ) : ℚ) ≤ pow2 52 := by
    have ht : ((52 : ℤ)).toNat = 52 := rfl
    rw [pow2_of_nonneg (by norm_num : (0 : ℤ) ≤ 52), ht]
    norm_num
  have hd2 := toDouble_le_nat _ 100 (by positivity) hq2 h52b
  have : toDouble (toDouble ((n : ℚ) / (d : ℚ)) * 100) ≤ ((100 : ℤ) : ℚ) := by
    exact_mod_cast hd2
  exact jsRound_le_int _ _ this

theorem lookupVal_statusCountsRaw (jobs : List Job) (s : JobStatus) :
    lookupVal s (statusCountsRaw jobs) =
      jobs.countP (fun j => j.status = s) := by
  unfold statusCountsRaw
  rw [← List.foldl_map Job.status bump jobs ([] : List (JobStatus × ℕ))]
  rw [lookupVal_foldl_bump]
  simp [lookupVal, List.countP_map, Function.comp_def]

theorem successJobsOf_eq (jobs : List Job) :
    successJobsOf jobs = jobs.countP (fun j => j.status = JobStatus.Accepted) := by
  unfold successJobsOf findValue statusDataOf
  by_cases h : jobs.isEmpty
  · have hnil : jobs = [] := List.isEmpty_iff.mp h
    subst hnil
    simp
  · rw [if_neg h]
    show lookupVal JobStatus.Accepted (statusCountsRaw jobs) = _
    exact lookupVal_statusCountsRaw jobs _

theorem interviewCountOf_eq (jobs : List Job) :
    interviewCountOf jobs = jobs.countP (fun j => j.status = JobStatus.Interview) := by
  unfold interviewCountOf findValue statusDataOf
  by_cases h : jobs.isEmpty
  · have hnil : jobs = [] := List.isEmpty_iff.mp h
    subst hnil
    simp
  · rw [if_neg h]
    show lookupVal JobStatus.Interview (statusCountsRaw jobs) = _
    exact lookupVal_statusCountsRaw jobs _

theorem offerCountOf_eq (jobs : List Job) :
    offerCountOf jobs = jobs.countP (fun j => j.status = JobStatus.Offer) := by
  unfold offerCountOf findValue statusDataOf
  by_cases h : jobs.isEmpty
  · have hnil : jobs = [] := List.isEmpty_iff.mp h
    subst hnil
    simp
  · rw [if_neg h]
    show lookupVal JobStatus.Offer (statusCountsRaw jobs) = _
    exact lookupVal_statusCountsRaw jobs _

theorem appliedCountOf_eq (jobs : List Job) :
    appliedCountOf jobs = jobs.countP (fun j => j.status = JobStatus.Applied) := by
  unfold appliedCountOf findValue statusDataOf
  by_cases h : jobs.isEmpty
  · have hnil : jobs = [] := List.isEmpty_iff.mp h
    subst hnil
    simp
  · rw [if_neg h]
    show lookupVal JobStatus.Applied (statusCountsRaw jobs) = _
    exact lookupVal_statusCountsRaw jobs _

theorem sum_countP_statuses (jobs : List Job) :
    jobs.countP (fun j => j.status = JobStatus.Applied) +
    jobs.countP (fun j => j.status = JobStatus.Interview) +
    jobs.countP (fun j => j.status = JobStatus.Offer) +
    jobs.countP (fun j => j.status = JobStatus.Accepted) +
    jobs.countP (fun j => j.status = JobStatus.Rejected) = jobs.length := by
  induction jobs with
  | nil => simp
  | cons j rest ih =>
    simp only [List.countP_cons, List.length_cons]
    cases hs : j.status <;> simp [hs] <;> omega

theorem sum_statusData_values (jobs : List Job) :
    ((statusDataOf jobs).map StatusDatum.value).sum = jobs.length := by
  unfold statusDataOf
  by_cases h : jobs.isEmpty
  · have hnil : jobs = [] := List.isEmpty_iff.mp h
    subst hnil
    simp
  · rw [if_neg h]
    simp only [STATUS_ORDER, List.map_cons, List.map_nil, List.sum_cons,
      List.sum_nil, lookupVal_statusCountsRaw]
    have := sum_countP_statuses jobs
    omega

theorem monthlyFold_ok (jobs : List Job) :
    ∀ acc, (∀ j ∈ jobs, dateOk j) →
      monthlyFold acc jobs = Except.ok ((monthLabels jobs).foldl bump acc) := by
  induction jobs with
  | nil =>
    intro acc _
    simp [monthlyFold, monthLabels]
  | cons j rest ih =>
    intro acc h
    have hj : dateOk j := h j (List.mem_cons_self j rest)
    have hrest : ∀ x ∈ rest, dateOk x := fun x hx => h x (List.mem_cons_of_mem j hx)
    by_cases hd : j.dateApplied = ""
    · rw [show monthlyFold acc (j :: rest) = monthlyFold acc rest by
        simp [monthlyFold, hd]]
      rw [show monthLabels (j :: rest) = monthLabels rest by
        simp [monthLabels, List.filterMap_cons, monthLabel?, hd]]
      exact ih acc hrest
    · have hs : (parseJsDate j.dateApplied).isSome := hj.resolve_left hd
      obtain ⟨d, hd2⟩ := Option.isSome_iff_exists.mp hs
      rw [show monthlyFold acc (j :: rest) =
          monthlyFold (bump acc (formatMonthYear d)) rest by
        simp [monthlyFold, hd, hd2]]
      rw [show monthLabels (j :: rest) = formatMonthYear d :: monthLabels rest by
        simp [monthLabels, List.filterMap_cons, monthLabel?, hd, hd2]]
      rw [List.foldl_cons]
      exact ih _ hrest

theorem monthlyFold_isOk_iff (jobs : List Job) :
    ∀ acc, isOkE (monthlyFold acc jobs) = true ↔ ∀ j ∈ jobs, dateOk j := by
  induction jobs with
  | nil =>
    intro acc
    simp [monthlyFold, isOkE]
  | cons j rest ih =>
    intro acc
    by_cases hd : j.dateApplied = ""
    · rw [show monthlyFold acc (j :: rest) = monthlyFold acc rest by
        simp [monthlyFold, hd]]
      rw [ih]
      constructor
      · intro h x hx
        rcases List.mem_cons.mp hx with rfl | hx2
        · exact Or.inl hd
        · exact h x hx2
      · intro h x hx
        exact h x (List.mem_cons_of_mem _ hx)
    · rcases hp : parseJsDate j.dateApplied with _ | d
      · rw [show monthlyFold acc (j :: rest) = Except.error "Invalid time value" by
          simp [monthlyFold, hd, hp]]
        simp only [isOkE]
        constructor
        · intro h
          exact absurd h (by simp)
        · intro h
          have hj := h j (List.mem_cons_self j rest)
          rcases hj with h1 | h2
          · exact absurd h1 hd
          · rw [hp] at h2
            simp at h2
      · rw [show monthlyFold acc (j :: rest) =
            monthlyFold (bump acc (formatMonthYear d)) rest by
          simp [monthlyFold, hd, hp]]
        rw [ih]
        constructor
        · intro h x hx
          rcases List.mem_cons.mp hx with rfl | hx2
          · exact Or.inr (by simp [hp])
          · exact h x hx2
        · intro h x hx
          exact h x (List.mem_cons_of_mem _ hx)

theorem monthLabels_length (jobs : List Job) (h : ∀ j ∈ jobs, dateOk j) :
    (monthLabels jobs).length = (jobs.filter fun j => j.dateApplied ≠ "").length := by
  induction jobs with
  | nil => simp [monthLabels]
  | cons j rest ih =>
    have hj : dateOk j := h j (List.mem_cons_self j rest)
    have hrest : ∀ x ∈ rest, dateOk x := fun x hx => h x (List.mem_cons_of_mem j hx)
    by_cases hd : j.dateApplied = ""
    · simp only [monthLabels, List.filterMap_cons, monthLabel?, hd, List.filter_cons]
      simpa [hd] using ih hrest
    · have hs : (parseJsDate j.dateApplied).isSome := hj.resolve_left hd
      obtain ⟨d, hd2⟩ := Option.isSome_iff_exists.mp hs
      simp only [monthLabels, List.filterMap_cons, monthLabel?, hd, hd2,
        List.filter_cons]
      simpa [hd] using ih hrest

theorem aggregate_ok_inv (jobs : List Job) (m : DerivedMetrics)
    (h : aggregate jobs = Except.ok m) :
    m.statusData = statusDataOf jobs ∧ m.totalJobs = jobs.length ∧
    m.successRate = successRateOf jobs ∧
    m.applicationToInterviewRate = applicationToInterviewRateOf jobs ∧
    m.interviewToOfferRate = interviewToOfferRateOf jobs ∧
    m.offerToAcceptanceRate = offerToAcceptanceRateOf jobs ∧
    monthlyCountsOf jobs = Except.ok m.monthlyData := by
  unfold aggregate at h
  by_cases he : jobs.isEmpty
  · have hnil : jobs = [] := List.isEmpty_iff.mp he
    subst hnil
    rw [if_pos he] at h
    have hmEq := Except.ok.inj h
    subst hmEq
    exact ⟨rfl, rfl, rfl, rfl, rfl, rfl, rfl⟩
  · rw [if_neg he] at h
    rcases hm : monthlyCountsOf jobs with e | monthly
    · rw [hm] at h
      cases h
    · rw [hm] at h
      have hmEq := Except.ok.inj h
      subst hmEq
      exact ⟨rfl, rfl, rfl, rfl, rfl, rfl, rfl⟩

/-- C6: for the empty input list the aggregator returns totalCount 0, all
    four rates 0, every statusCounts value 0, and an empty monthlyCounts
    mapping. -/
theorem C6_empty_input_all_zero :
    ∃ m : DerivedMetrics, aggregate [] = Except.ok m ∧ m.totalJobs = 0 ∧
      m.successRate = 0 ∧ m.applicationToInterviewRate = 0 ∧
      m.interviewToOfferRate = 0 ∧ m.offerToAcceptanceRate = 0 ∧
      (∀ d ∈ m.statusData, d.value = 0) ∧ m.monthlyData = [] := by
  refine ⟨⟨[], [], 0, 0, 0, 0, 0, 0, 0, 0, 0⟩, rfl, rfl, rfl, rfl, rfl, rfl, ?_, rfl⟩
  intro d hd
  simp at hd

/-- C4: for every finite input list of JobRecord the sum of the statusCounts
    values over the five fixed statuses equals totalCount, the length of the
    input list. -/
theorem C4_sum_statusCounts_eq_totalCount (jobs : List Job) (m : DerivedMetrics)
    (h : aggregate jobs = Except.ok m) :
    (m.statusData.map StatusDatum.value).sum = m.totalJobs ∧
    m.totalJobs = jobs.length := by
  obtain ⟨hs, ht, -, -, -, -, -⟩ := aggregate_ok_inv jobs m h
  rw [hs, ht]
  exact ⟨sum_statusData_values jobs, rfl⟩

/-- Witness for C4 at a concrete two-record input. -/
theorem C4_sum_statusCounts_eq_totalCount_witness :
    ((DerivedMetrics.mk
        [⟨JobStatus.Applied, 1⟩, ⟨JobStatus.Interview, 0⟩, ⟨JobStatus.Offer, 1⟩,
         ⟨JobStatus.Accepted, 0⟩, ⟨JobStatus.Rejected, 0⟩]
        [("Jan 2024", 1), ("Feb 2024", 1)] 2 0 0 0 0 0 0 1 1).statusData.map
          StatusDatum.value).sum =
      (DerivedMetrics.mk
        [⟨JobStatus.Applied, 1⟩, ⟨JobStatus.Interview, 0⟩, ⟨JobStatus.Offer, 1⟩,
         ⟨JobStatus.Accepted, 0⟩, ⟨JobStatus.Rejected, 0⟩]
        [("Jan 2024", 1), ("Feb 2024", 1)] 2 0 0 0 0 0 0 1 1).totalJobs ∧
    (DerivedMetrics.mk
        [⟨JobStatus.Applied, 1⟩, ⟨JobStatus.Interview, 0⟩, ⟨JobStatus.Offer, 1⟩,
         ⟨JobStatus.Accepted, 0⟩, ⟨JobStatus.Rejected, 0⟩]
        [("Jan 2024", 1), ("Feb 2024", 1)] 2 0 0 0 0 0 0 1 1).totalJobs =
      exPermA.length :=
  C4_sum_statusCounts_eq_totalCount exPermA _ (by with_unfolding_all decide)

/-- C3 counterexample: for the empty input list the computed statusData is
    the empty mapping, not a zero-filled mapping with the five fixed keys. -/
theorem C3_counterexample_empty_input :
    statusDataOf [] = [] ∧ (statusDataOf []).map StatusDatum.name ≠ STATUS_ORDER := by
  constructor
  · rfl
  · decide

/-- C3 amended: for every nonempty input list the computed statusData holds
    exactly the five fixed keys in display order, each zero-filled to the
    count of records with that status; for the empty input it is empty. -/
theorem C3_statusCounts_five_keys (jobs : List Job) (h : jobs ≠ []) :
    (statusDataOf jobs).map StatusDatum.name = STATUS_ORDER ∧
    statusDataOf jobs =
      STATUS_ORDER.map fun s => ⟨s, jobs.countP fun j => j.status = s⟩ := by
  have he : ¬ jobs.isEmpty = true := by
    cases jobs with
    | nil => exact absurd rfl h
    | cons a l => simp
  constructor
  · unfold statusDataOf
    rw [if_neg he]
    simp [STATUS_ORDER]
  · unfold statusDataOf
    rw [if_neg he]
    simp only [lookupVal_statusCountsRaw]

/-- Witness for C3 at a concrete nonempty input. -/
theorem C3_statusCounts_five_keys_witness :
    (statusDataOf exTwoInterviewOneApplied).map StatusDatum.name = STATUS_ORDER ∧
    statusDataOf exTwoInterviewOneApplied =
      STATUS_ORDER.map
        (fun s => ⟨s, exTwoInterviewOneApplied.countP fun j => j.status = s⟩) :=
  C3_statusCounts_five_keys exTwoInterviewOneApplied (by decide)

/-- C1 counterexample: with two Interview records and one Applied record the
    code computes applicationToInterviewRate 200, outside [0, 100]. -/
theorem C1_counterexample_rate_above_100 :
    applicationToInterviewRateOf exTwoInterviewOneApplied = 200 ∧
    ¬ applicationToInterviewRateOf exTwoInterviewOneApplied ≤ 100 := by
  with_unfolding_all decide

/-- C1 amended: every rate is a nonnegative integer and successRate always
    lies in [0, 100]; the three stage-to-stage rates are not bounded by 100. -/
theorem C1_rates_nonneg_successRate_bounded (jobs : List Job) :
    0 ≤ successRateOf jobs ∧ successRateOf jobs ≤ 100 ∧
    0 ≤ applicationToInterviewRateOf jobs ∧
    0 ≤ interviewToOfferRateOf jobs ∧
    0 ≤ offerToAcceptanceRateOf jobs := by
  refine ⟨?_, ?_, ?_, ?_, ?_⟩
  · unfold successRateOf
    split_ifs
    · exact le_refl 0
    · exact jsRate_nonneg _ _
    · exact le_refl 0
  · unfold successRateOf
    split_ifs
    · norm_num
    · apply jsRate_le_100
      rw [successJobsOf_eq]
      exact List.countP_le_length _
    · norm_num
  · unfold applicationToInterviewRateOf
    split_ifs
    · exact le_refl 0
    · exact jsRate_nonneg _ _
    · exact le_refl 0
  · unfold interviewToOfferRateOf
    split_ifs
    · exact le_refl 0
    · exact jsRate_nonneg _ _
    · exact le_refl 0
  · unfold offerToAcceptanceRateOf
    split_ifs
    · exact le_refl 0
    · exact jsRate_nonneg _ _
    · exact le_refl 0

/-- C5 counterexample: at 23 Interview and 40 Applied records the exact ratio
    is the tie 57.5 percent; the code computes 57 through double arithmetic,
    while round-to-nearest with ties rounded up on the exact ratio gives 58. -/
theorem C5_counterexample_tie_rounds_down :
    interviewCountOf exTie2340 = 23 ∧ appliedCountOf exTie2340 = 40 ∧
    applicationToInterviewRateOf exTie2340 = 57 ∧
    specRoundTiesUp (100 * (23 : ℚ) / 40) = 58 := by
  with_unfolding_all decide

/-- C5 amended: each rate equals Math.round applied to the double-precision
    evaluation of (numerator / denominator) * 100 when its denominator is
    positive and 0 otherwise, with the numerator and denominator pairs as
    claimed; this agrees with exact rounding except where the double
    evaluation of an exact tie falls below the half point. -/
theorem C5_rates_formula (jobs : List Job) :
    successRateOf jobs =
      (if 0 < jobs.length then
        jsRate (jobs.countP fun j => j.status = JobStatus.Accepted) jobs.length
      else 0) ∧
    applicationToInterviewRateOf jobs =
      (if 0 < jobs.countP (fun j => j.status = JobStatus.Applied) then
        jsRate (jobs.countP fun j => j.status = JobStatus.Interview)
          (jobs.countP fun j => j.status = JobStatus.Applied)
      else 0) ∧
    interviewToOfferRateOf jobs =
      (if 0 < jobs.countP (fun j => j.status = JobStatus.Interview) then
        jsRate (jobs.countP fun j => j.status = JobStatus.Offer)
          (jobs.countP fun j => j.status = JobStatus.Interview)
      else 0) ∧
    offerToAcceptanceRateOf jobs =
      (if 0 < jobs.countP (fun j => j.status = JobStatus.Offer) then
        jsRate (jobs.countP fun j => j.status = JobStatus.Accepted)
          (jobs.countP fun j => j.status = JobStatus.Offer)
      else 0) := by
  by_cases he : jobs.isEmpty
  · have hnil : jobs = [] := List.isEmpty_iff.mp he
    subst hnil
    refine ⟨?_, ?_, ?_, ?_⟩
    · simp [successRateOf]
    · simp [applicationToInterviewRateOf]
    · simp [interviewToOfferRateOf]
    · simp [offerToAcceptanceRateOf]
  · refine ⟨?_, ?_, ?_, ?_⟩
    · unfold successRateOf
      rw [if_neg he, successJobsOf_eq]
    · unfold applicationToInterviewRateOf
      rw [if_neg he, appliedCountOf_eq, interviewCountOf_eq]
    · unfold interviewToOfferRateOf
      rw [if_neg he, interviewCountOf_eq, offerCountOf_eq]
    · unfold offerToAcceptanceRateOf
      rw [if_neg he, offerCountOf_eq, successJobsOf_eq]

/-- C2 counterexample: one record whose dateApplied is truthy but not
    parseable as a date makes the aggregation throw the date-fns RangeError
    instead of returning a DerivedMetrics value. -/
theorem C2_counterexample_unparseable_date_throws :
    aggregate exBadDate = Except.error "Invalid time value" := by
  with_unfolding_all decide

/-- C2 amended: the aggregator returns a DerivedMetrics value whenever every
    record has an empty dateApplied or a parseable one; records with an
    empty dateApplied are excluded from monthlyCounts only, while still
    counted in statusCounts and totalCount.  A truthy unparseable
    dateApplied instead makes it throw. -/
theorem C2_total_when_dates_parse (jobs : List Job)
    (h : ∀ j ∈ jobs, dateOk j) :
    ∃ m : DerivedMetrics, aggregate jobs = Except.ok m ∧
      m.totalJobs = jobs.length ∧
      (m.statusData.map StatusDatum.value).sum = jobs.length ∧
      sumVals m.monthlyData = (jobs.filter fun j => j.dateApplied ≠ "").length := by
  by_cases he : jobs.isEmpty
  · have hnil : jobs = [] := List.isEmpty_iff.mp he
    subst hnil
    exact ⟨⟨[], [], 0, 0, 0, 0, 0, 0, 0, 0, 0⟩, rfl, rfl, rfl, rfl⟩
  · have hm : monthlyCountsOf jobs =
        Except.ok ((monthLabels jobs).foldl bump []) := monthlyFold_ok jobs [] h
    refine ⟨⟨statusDataOf jobs, (monthLabels jobs).foldl bump [], jobs.length,
      successRateOf jobs, successJobsOf jobs, applicationToInterviewRateOf jobs,
      interviewToOfferRateOf jobs, offerToAcceptanceRateOf jobs,
      interviewCountOf jobs, offerCountOf jobs, appliedCountOf jobs⟩,
      ?_, rfl, sum_statusData_values jobs, ?_⟩
    · unfold aggregate
      rw [if_neg he, hm]
    · show sumVals ((monthLabels jobs).foldl bump []) = _
      rw [sumVals_foldl_bump]
      have h0 : sumVals ([] : List (String × ℕ)) = 0 := rfl
      rw [h0, Nat.zero_add]
      exact monthLabels_length jobs h

/-- Witness for C2 at a concrete input holding an empty date, two January
    dates and one March date. -/
theorem C2_total_when_dates_parse_witness :
    ∃ m : DerivedMetrics, aggregate exMixedDates = Except.ok m ∧
      m.totalJobs = exMixedDates.length ∧
      (m.statusData.map StatusDatum.value).sum = exMixedDates.length ∧
      sumVals m.monthlyData =
        (exMixedDates.filter fun j => j.dateApplied ≠ "").length :=
  C2_total_when_dates_parse exMixedDates (by with_unfolding_all decide)

/-- C7: whenever the monthly reduce returns, its mapping holds, in insertion
    order of first occurrence, one key per distinct derived month label, a
    key being present exactly when at least one record derives it, and maps
    each key to the number of records deriving it. -/
theorem C7_monthlyCounts_characterization (jobs : List Job)
    (m : List (String × ℕ)) (h : monthlyCountsOf jobs = Except.ok m) :
    m.map Prod.fst = firstOccs (monthLabels jobs) ∧
    (∀ p ∈ m, p.2 = (monthLabels jobs).countP (fun l => l = p.1) ∧ 0 < p.2) ∧
    (∀ k : String, k ∈ m.map Prod.fst ↔ k ∈ monthLabels jobs) := by
  have hok : ∀ j ∈ jobs, dateOk j := by
    apply (monthlyFold_isOk_iff jobs []).mp
    show isOkE (monthlyFold [] jobs) = true
    rw [show monthlyFold [] jobs = monthlyCountsOf jobs from rfl, h]
    rfl
  have hm : m = (monthLabels jobs).foldl bump [] := by
    have hf := monthlyFold_ok jobs [] hok
    rw [show monthlyCountsOf jobs = monthlyFold [] jobs from rfl, hf] at h
    exact (Except.ok.inj h).symm
  subst hm
  refine ⟨?_, ?_, ?_⟩
  · rw [map_fst_foldl_bump]
    rfl
  · intro p hp
    have hnd : (((monthLabels jobs).foldl bump []).map Prod.fst).Nodup := by
      rw [map_fst_foldl_bump]
      exact nodup_firstOccsFrom _ _ List.nodup_nil
    have hpm : (p.1, p.2) ∈ (monthLabels jobs).foldl bump [] := by
      rwa [Prod.mk.eta]
    have hlv := lookupVal_eq_of_mem _ p.1 p.2 hnd hpm
    have hcount := lookupVal_foldl_bump (monthLabels jobs) [] p.1
    have hval : p.2 = (monthLabels jobs).countP (fun l => l = p.1) := by
      rw [← hlv, hcount]
      simp [lookupVal]
    refine ⟨hval, ?_⟩
    have hk : p.1 ∈ monthLabels jobs := by
      have hmm : p.1 ∈ ((monthLabels jobs).foldl bump []).map Prod.fst :=
        List.mem_map_of_mem Prod.fst hp
      rw [map_fst_foldl_bump, mem_firstOccsFrom] at hmm
      simpa using hmm
    have hpos : 0 < (monthLabels jobs).countP (fun l => l = p.1) := by
      rw [List.countP_pos_iff]
      exact ⟨p.1, hk, by simp⟩
    omega
  · intro k
    rw [map_fst_foldl_bump, mem_firstOccsFrom]
    simp

/-- Witness for C7 at a concrete input with two January records, one March
    record, and one record with an empty date. -/
theorem C7_monthlyCounts_characterization_witness :
    ([("Jan 2024", 2), ("Mar 2024", 1)] : List (String × ℕ)).map Prod.fst =
      firstOccs (monthLabels exMixedDates) ∧
    (∀ p ∈ ([("Jan 2024", 2), ("Mar 2024", 1)] : List (String × ℕ)),
      p.2 = (monthLabels exMixedDates).countP (fun l => l = p.1) ∧ 0 < p.2) ∧
    (∀ k : String,
      k ∈ ([("Jan 2024", 2), ("Mar 2024", 1)] : List (String × ℕ)).map Prod.fst ↔
        k ∈ monthLabels exMixedDates) :=
  C7_monthlyCounts_characterization exMixedDates [("Jan 2024", 2), ("Mar 2024", 1)]
    (by with_unfolding_all decide)

/-- C8: permuting the input leaves statusData, totalCount and the four rates
    unchanged, leaves unchanged whether the monthly reduce throws, and
    changes monthlyCounts at most in key insertion order: every key keeps
    the same count. -/
theorem C8_permutation_invariance (l1 l2 : List Job) (h : l1.Perm l2) :
    statusDataOf l1 = statusDataOf l2 ∧
    l1.length = l2.length ∧
    successRateOf l1 = successRateOf l2 ∧
    applicationToInterviewRateOf l1 = applicationToInterviewRateOf l2 ∧
    interviewToOfferRateOf l1 = interviewToOfferRateOf l2 ∧
    offerToAcceptanceRateOf l1 = offerToAcceptanceRateOf l2 ∧
    isOkE (monthlyCountsOf l1) = isOkE (monthlyCountsOf l2) ∧
    (∀ m1 m2, monthlyCountsOf l1 = Except.ok m1 →
      monthlyCountsOf l2 = Except.ok m2 →
      ∀ k, lookupVal k m1 = lookupVal k m2) := by
  have hlen := h.length_eq
  have hemp : l1.isEmpty = l2.isEmpty := by
    cases l1 <;> cases l2 <;> simp_all
  have hcnt : ∀ s : JobStatus,
      l1.countP (fun j => j.status = s) = l2.countP (fun j => j.status = s) :=
    fun s => h.countP_eq _
  have hsd : statusDataOf l1 = statusDataOf l2 := by
    unfold statusDataOf
    rw [hemp]
    by_cases he : l2.isEmpty
    · rw [if_pos he, if_pos he]
    · rw [if_neg he, if_neg he]
      apply List.map_congr_left
      intro s _
      have hv : lookupVal s (statusCountsRaw l1) = lookupVal s (statusCountsRaw l2) := by
        rw [lookupVal_statusCountsRaw, lookupVal_statusCountsRaw]
        exact hcnt s
      rw [hv]
  have hsj : successJobsOf l1 = successJobsOf l2 := by
    rw [successJobsOf_eq, successJobsOf_eq]; exact hcnt _
  have hic : interviewCountOf l1 = interviewCountOf l2 := by
    rw [interviewCountOf_eq, interviewCountOf_eq]; exact hcnt _
  have hoc : offerCountOf l1 = offerCountOf l2 := by
    rw [offerCountOf_eq, offerCountOf_eq]; exact hcnt _
  have hac : appliedCountOf l1 = appliedCountOf l2 := by
    rw [appliedCountOf_eq, appliedCountOf_eq]; exact hcnt _
  have hsr : successRateOf l1 = successRateOf l2 := by
    unfold successRateOf
    rw [hemp, hlen, hsj]
  have har : applicationToInterviewRateOf l1 = applicationToInterviewRateOf l2 := by
    unfold applicationToInterviewRateOf
    rw [hemp, hac, hic]
  have hir : interviewToOfferRateOf l1 = interviewToOfferRateOf l2 := by
    unfold interviewToOfferRateOf
    rw [hemp, hic, hoc]
  have hor : offerToAcceptanceRateOf l1 = offerToAcceptanceRateOf l2 := by
    unfold offerToAcceptanceRateOf
    rw [hemp, hoc, hsj]
  have hmemiff : ∀ j : Job, j ∈ l1 ↔ j ∈ l2 := fun j => h.mem_iff
  have hokiff : (∀ j ∈ l1, dateOk j) ↔ (∀ j ∈ l2, dateOk j) := by
    constructor
    · intro hh j hj; exact hh j ((hmemiff j).mpr hj)
    · intro hh j hj; exact hh j ((hmemiff j).mp hj)
  have hisok : isOkE (monthlyCountsOf l1) = isOkE (monthlyCountsOf l2) := by
    show isOkE (monthlyFold [] l1) = isOkE (monthlyFold [] l2)
    by_cases hok : ∀ j ∈ l1, dateOk j
    · rw [(monthlyFold_isOk_iff l1 []).mpr hok,
        (monthlyFold_isOk_iff l2 []).mpr (hokiff.mp hok)]
    · have hok2 : ¬ ∀ j ∈ l2, dateOk j := fun hh => hok (hokiff.mpr hh)
      have b1 : isOkE (monthlyFold [] l1) = false := by
        cases hb : isOkE (monthlyFold [] l1)
        · rfl
        · exact absurd ((monthlyFold_isOk_iff l1 []).mp hb) hok
      have b2 : isOkE (monthlyFold [] l2) = false := by
        cases hb : isOkE (monthlyFold [] l2)
        · rfl
        · exact absurd ((monthlyFold_isOk_iff l2 []).mp hb) hok2
      rw [b1, b2]
  have hlab : (monthLabels l1).Perm (monthLabels l2) := h.filterMap _
  refine ⟨hsd, hlen, hsr, har, hir, hor, hisok, ?_⟩
  intro m1 m2 h1 h2 k
  have hok1 : ∀ j ∈ l1, dateOk j := by
    apply (monthlyFold_isOk_iff l1 []).mp
    show isOkE (monthlyFold [] l1) = true
    rw [show monthlyFold [] l1 = monthlyCountsOf l1 from rfl, h1]
    rfl
  have hok2 : ∀ j ∈ l2, dateOk j := hokiff.mp hok1
  have e1 : m1 = (monthLabels l1).foldl bump [] := by
    have hf := monthlyFold_ok l1 [] hok1
    rw [show monthlyCountsOf l1 = monthlyFold [] l1 from rfl, hf] at h1
    exact (Except.ok.inj h1).symm
  have e2 : m2 = (monthLabels l2).foldl bump [] := by
    have hf := monthlyFold_ok l2 [] hok2
    rw [show monthlyCountsOf l2 = monthlyFold [] l2 from rfl, hf] at h2
    exact (Except.ok.inj h2).symm
  subst e1
  subst e2
  rw [lookupVal_foldl_bump, lookupVal_foldl_bump, hlab.countP_eq]

/-- Witness for C8 at a concrete two-record list and its transposition. -/
theorem C8_permutation_invariance_witness :
    statusDataOf exPermA = statusDataOf exPermB ∧
    exPermA.length = exPermB.length ∧
    successRateOf exPermA = successRateOf exPermB ∧
    applicationToInterviewRateOf exPermA = applicationToInterviewRateOf exPermB ∧
    interviewToOfferRateOf exPermA = interviewToOfferRateOf exPermB ∧
    offerToAcceptanceRateOf exPermA = offerToAcceptanceRateOf exPermB ∧
    isOkE (monthlyCountsOf exPermA) = isOkE (monthlyCountsOf exPermB) ∧
    (∀ m1 m2, monthlyCountsOf exPermA = Except.ok m1 →
      monthlyCountsOf exPermB = Except.ok m2 →
      ∀ k, lookupVal k m1 = lookupVal k m2) :=
  C8_permutation_invariance exPermA exPermB (by exact List.Perm.swap _ _ _)

/-- C10: every status the creation form can submit is one of the four
    options its selector offers, so never Accepted, even though the per-row
    selector of JobList does offer Accepted. -/
theorem C10_form_cannot_create_Accepted (s : JobStatus)
    (h : FormStatusReachable s) :
    s ∈ formStatusOptions ∧ s ≠ JobStatus.Accepted ∧
    JobStatus.Accepted ∈ jobListStatusOptions ∧
    JobStatus.Accepted ∉ formStatusOptions := by
  have hmem : s ∈ formStatusOptions := by
    cases h with
    | init => decide
    | select a ha => exact ha
  refine ⟨hmem, ?_, by decide, by decide⟩
  intro heq
  subst heq
  exact absurd hmem (by decide)

/-- Witness for C10 at the initial form state. -/
theorem C10_form_cannot_create_Accepted_witness :
    JobStatus.Applied ∈ formStatusOptions ∧
    JobStatus.Applied ≠ JobStatus.Accepted ∧
    JobStatus.Accepted ∈ jobListStatusOptions ∧
    JobStatus.Accepted ∉ formStatusOptions :=
  C10_form_cannot_create_Accepted JobStatus.Applied FormStatusReachable.init
